import Mathlib

/-!
Verification of the event detector (`detect_events`) from
`Python_Analysis_Scripts/Detect Heatwave Pollution Events.py`.

The detector takes a numeric anomaly series with aligned monthly
timestamps, thresholds it (by percentile or by a fixed z-score cutoff),
and scans the resulting boolean mask for maximal runs of `true`, keeping
those whose calendar-month duration reaches a configured minimum.

Numeric values are modelled by exact rationals; pandas timestamps by a
(year, month, day) structure whose `to_period('M')` is an absolute month
count; fallible paths (`raise ValueError`, numpy errors) by `Except`.
-/

namespace Lagos

/-- A calendar timestamp (year, month, day), modelling a pandas `Timestamp`
built by the script via `to_datetime(dict(year, month, day=1))`. -/
structure Timestamp where
  year : Int
  month : Int
  day : Int
deriving DecidableEq, Repr, Inhabited

/-- `t.to_period('M')` as an absolute month number: differences of this
count are calendar-month differences, regardless of day-of-month. -/
def toPeriodM (t : Timestamp) : Int := t.year * 12 + t.month

/-- An event `(start, end, duration)` as returned by `detect_events`. -/
abbrev Event := Timestamp × Timestamp × Int

/-- `np.percentile(series, pct)` with numpy's default linear interpolation,
over exact rationals: sort ascending, take the virtual index
`h = (n-1)*pct/100`, and interpolate linearly between the two neighbouring
order statistics.  The error cases mirror numpy: an out-of-range `pct`
raises `ValueError`, an empty input raises `IndexError`. -/
def percentile (series : List ℚ) (pct : ℚ) : Except String ℚ :=
  if pct < 0 ∨ 100 < pct then
    .error "Percentiles must be in the range [0, 100]"
  else if series = [] then
    .error "cannot do a non-empty take from an empty axes."
  else
    let sorted := List.insertionSort (· ≤ ·) series
    let n := series.length
    let h : ℚ := ((n : ℚ) - 1) * pct / 100
    let l : Nat := (Int.floor h).toNat
    let lo := sorted.getD l 0
    let hi := sorted.getD (min (l + 1) (n - 1)) 0
    .ok (lo + (h - (l : ℚ)) * (hi - lo))

/-- The scan loop of `detect_events`: walk the mask left to right with the
`in_event`/`start_date` state.  A false→true transition opens a candidate
at `time_index[idx]`; a true→false transition closes it at
`time_index[idx-1]` and keeps it iff its month duration reaches
`min_duration_months`; a run still open after the loop is closed with the
last timestamp (`time_index[-1]`). -/
def eventLoop (time_index : List Timestamp) (min_duration_months : Int) :
    List Bool → Nat → Bool → Timestamp → List Event → List Event
  | [], _idx, in_event, start_date, events =>
      if in_event then
        let end_date := time_index.getLastD default
        let duration := toPeriodM end_date - toPeriodM start_date + 1
        if min_duration_months ≤ duration then
          events ++ [(start_date, end_date, duration)]
        else events
      else events
  | val :: rest, idx, in_event, start_date, events =>
      if val && !in_event then
        eventLoop time_index min_duration_months rest (idx + 1) true
          (time_index.getD idx default) events
      else if !val && in_event then
        let end_date := time_index.getD (idx - 1) default
        let duration := toPeriodM end_date - toPeriodM start_date + 1
        let events' :=
          if min_duration_months ≤ duration then
            events ++ [(start_date, end_date, duration)]
          else events
        eventLoop time_index min_duration_months rest (idx + 1) false start_date events'
      else
        eventLoop time_index min_duration_months rest (idx + 1) in_event start_date events

/-- `detect_events(series, time_index, method, pct, z_thresh,
min_duration_months)`: threshold the series (percentile of the series in
percentile mode, the literal `z_thresh` in z-score mode; any other method
string raises `ValueError`), build the strict-inequality mask, and scan it
for qualifying runs.  Returns the event list and the mask. -/
def detect_events (series : List ℚ) (time_index : List Timestamp)
    (method : String) (pct : ℚ) (z_thresh : ℚ) (min_duration_months : Int) :
    Except String (List Event × List Bool) :=
  if method = "percentile" then
    match percentile series pct with
    | .error e => .error e
    | .ok threshold =>
        let mask := series.map (fun x => decide (threshold < x))
        .ok (eventLoop time_index min_duration_months mask 0 false default [], mask)
  else if method = "zscore" then
    let mask := series.map (fun x => decide (z_thresh < x))
    .ok (eventLoop time_index min_duration_months mask 0 false default [], mask)
  else
    .error "Method must be percentile or zscore."

/-- The threshold `detect_events` compares the series against: the series
percentile in percentile mode, the literal `z_thresh` in z-score mode. -/
def thresholdOf (series : List ℚ) (method : String) (pct z_thresh : ℚ) :
    Option ℚ :=
  if method = "percentile" then (percentile series pct).toOption
  else if method = "zscore" then some z_thresh
  else none

/-! ### Specification-side view of the scan

`runsAux`/`maskRuns` compute the maximal runs of consecutive `true`
entries of a mask as (start index, length) pairs, mirroring the state of
`eventLoop`; `eventsOfRuns` turns runs into events by reading off the
timestamps and filtering on duration.  The main lemma
`eventLoop_spec` proves `eventLoop` equal to this view. -/

/-- Maximal `true` runs of a mask, as (start index, length) pairs. -/
def runsAux : List Bool → Nat → Option Nat → List (Nat × Nat) → List (Nat × Nat)
  | [], idx, some s, acc => acc ++ [(s, idx - s)]
  | [], _idx, none, acc => acc
  | true :: rest, idx, none, acc => runsAux rest (idx + 1) (some idx) acc
  | true :: rest, idx, some s, acc => runsAux rest (idx + 1) (some s) acc
  | false :: rest, idx, none, acc => runsAux rest (idx + 1) none acc
  | false :: rest, idx, some s, acc => runsAux rest (idx + 1) none (acc ++ [(s, idx - s)])

/-- Maximal `true` runs of a mask. -/
def maskRuns (mask : List Bool) : List (Nat × Nat) := runsAux mask 0 none []

/-- The event a run would produce: its first and last timestamps, and the
month duration between them. -/
def runEventAt (time_index : List Timestamp) (r : Nat × Nat) : Event :=
  let s := time_index.getD r.1 default
  let e := time_index.getD (r.1 + r.2 - 1) default
  (s, e, toPeriodM e - toPeriodM s + 1)

/-- Events of a run list: map runs to events, keep those whose duration
reaches `d`. -/
def eventsOfRuns (time_index : List Timestamp) (d : Int)
    (rs : List (Nat × Nat)) : List Event :=
  (rs.map (runEventAt time_index)).filter (fun ev => decide (d ≤ ev.2.2))

/-- The timestamp of absolute month number `k` (day fixed to 1, as the
script builds its dates). -/
def monthIndexToTs (k : Int) : Timestamp := ⟨k / 12, k % 12 + 1, 1⟩

/-- `n` consecutive monthly timestamps starting at absolute month `m0`:
the gap-free monthly time index of the spec's data model. -/
def monthRange (m0 : Int) (n : Nat) : List Timestamp :=
  (List.range n).map (fun i : Nat => monthIndexToTs (m0 + (i : Int)))

lemma toPeriodM_monthIndexToTs (k : Int) :
    toPeriodM (monthIndexToTs k) = k + 1 := by
  simp only [toPeriodM, monthIndexToTs]
  omega

lemma monthRange_length (m0 : Int) (n : Nat) :
    (monthRange m0 n).length = n := by
  simp only [monthRange, List.length_map, List.length_range]

lemma monthRange_getD (m0 : Int) {n i : Nat} (h : i < n) (t : Timestamp) :
    (monthRange m0 n).getD i t = monthIndexToTs (m0 + i) := by
  rw [List.getD_eq_getElem _ _ (by simpa only [monthRange_length] using h)]
  simp only [monthRange, List.getElem_map, List.getElem_range]

lemma getLastD_eq_getD {α : Type} [Inhabited α] (l : List α) (hl : l ≠ []) (d : α) :
    l.getLastD d = l.getD (l.length - 1) d := by
  induction l generalizing d with
  | nil => exact absurd rfl hl
  | cons a t ih =>
    cases t with
    | nil => rfl
    | cons b t' =>
      rw [List.getLastD_cons, ih (by simp) a]
      simp [List.getD_cons_succ]

lemma eventsOfRuns_nil (t : List Timestamp) (d : Int) :
    eventsOfRuns t d [] = [] := rfl

lemma eventsOfRuns_concat (t : List Timestamp) (d : Int)
    (acc : List (Nat × Nat)) (r : Nat × Nat) :
    eventsOfRuns t d (acc ++ [r]) =
      eventsOfRuns t d acc ++
        (if d ≤ (runEventAt t r).2.2 then [runEventAt t r] else []) := by
  simp only [eventsOfRuns, List.map_append, List.filter_append, List.map_cons,
    List.map_nil, List.filter_cons, List.filter_nil]
  by_cases hd : d ≤ (runEventAt t r).2.2 <;> simp [hd]

/-- The scan loop agrees, state by state, with the run decomposition of the
remaining mask. -/
lemma eventLoop_eq_runsAux (time_index : List Timestamp) (d : Int) :
    ∀ (rest : List Bool) (idx : Nat) (s : Option Nat) (sd : Timestamp)
      (acc : List (Nat × Nat)),
      idx + rest.length = time_index.length →
      (∀ s0, s = some s0 → s0 < idx ∧ sd = time_index.getD s0 default) →
      eventLoop time_index d rest idx s.isSome sd (eventsOfRuns time_index d acc)
        = eventsOfRuns time_index d (runsAux rest idx s acc) := by
  intro rest
  induction rest with
  | nil =>
    intro idx s sd acc hlen hs
    cases s with
    | none => simp [eventLoop, runsAux]
    | some s0 =>
      obtain ⟨hlt, hsd⟩ := hs s0 rfl
      have hn : time_index.length = idx := by simpa using hlen.symm
      have hne : time_index ≠ [] := by
        intro h
        rw [h] at hn
        simp at hn
        omega
      have hidx : s0 + (idx - s0) - 1 = idx - 1 := by omega
      have hrun : runEventAt time_index (s0, idx - s0) =
          (sd, time_index.getD (idx - 1) default,
            toPeriodM (time_index.getD (idx - 1) default) - toPeriodM sd + 1) := by
        simp only [runEventAt, hidx, hsd]
      have hstep : runsAux [] idx (some s0) acc = acc ++ [(s0, idx - s0)] := rfl
      rw [hstep, eventsOfRuns_concat, hrun]
      simp only [eventLoop, Option.isSome_some, if_true]
      rw [getLastD_eq_getD _ hne, hn]
      by_cases hd : d ≤ toPeriodM (time_index.getD (idx - 1) default) - toPeriodM sd + 1
      · rw [if_pos hd, if_pos hd]
      · rw [if_neg hd, if_neg hd, List.append_nil]
  | cons val rest' ih =>
    intro idx s sd acc hlen hs
    have hlen' : idx + 1 + rest'.length = time_index.length := by
      simp only [List.length_cons] at hlen
      omega
    cases val with
    | true =>
      cases s with
      | none =>
        have hstepL : eventLoop time_index d (true :: rest') idx false sd
              (eventsOfRuns time_index d acc)
            = eventLoop time_index d rest' (idx + 1) true
              (time_index.getD idx default) (eventsOfRuns time_index d acc) := by
          simp [eventLoop]
        have hstepR : runsAux (true :: rest') idx none acc
            = runsAux rest' (idx + 1) (some idx) acc := rfl
        rw [show (none : Option Nat).isSome = false from rfl, hstepL, hstepR]
        have := ih (idx + 1) (some idx) (time_index.getD idx default) acc hlen'
          (by
            intro s0 h0
            injection h0 with h0
            subst h0
            exact ⟨Nat.lt_succ_self _, rfl⟩)
        simpa using this
      | some s0 =>
        obtain ⟨hlt, hsd⟩ := hs s0 rfl
        have hstepL : eventLoop time_index d (true :: rest') idx true sd
              (eventsOfRuns time_index d acc)
            = eventLoop time_index d rest' (idx + 1) true sd
              (eventsOfRuns time_index d acc) := by
          simp [eventLoop]
        have hstepR : runsAux (true :: rest') idx (some s0) acc
            = runsAux rest' (idx + 1) (some s0) acc := rfl
        rw [show (some s0 : Option Nat).isSome = true from rfl, hstepL, hstepR]
        have := ih (idx + 1) (some s0) sd acc hlen'
          (by
            intro s1 h1
            injection h1 with h1
            subst h1
            exact ⟨Nat.lt_succ_of_lt hlt, hsd⟩)
        simpa using this
    | false =>
      cases s with
      | none =>
        have hstepL : eventLoop time_index d (false :: rest') idx false sd
              (eventsOfRuns time_index d acc)
            = eventLoop time_index d rest' (idx + 1) false sd
              (eventsOfRuns time_index d acc) := by
          simp [eventLoop]
        have hstepR : runsAux (false :: rest') idx none acc
            = runsAux rest' (idx + 1) none acc := rfl
        rw [show (none : Option Nat).isSome = false from rfl, hstepL, hstepR]
        have := ih (idx + 1) none sd acc hlen' (by intro s0 h0; cases h0)
        simpa using this
      | some s0 =>
        obtain ⟨hlt, hsd⟩ := hs s0 rfl
        have hidx : s0 + (idx - s0) - 1 = idx - 1 := by omega
        have hrun : runEventAt time_index (s0, idx - s0) =
            (sd, time_index.getD (idx - 1) default,
              toPeriodM (time_index.getD (idx - 1) default) - toPeriodM sd + 1) := by
          simp only [runEventAt, hidx, hsd]
        have hstepL : eventLoop time_index d (false :: rest') idx true sd
              (eventsOfRuns time_index d acc)
            = eventLoop time_index d rest' (idx + 1) false sd
              (if d ≤ toPeriodM (time_index.getD (idx - 1) default) - toPeriodM sd + 1 then
                eventsOfRuns time_index d acc ++
                  [(sd, time_index.getD (idx - 1) default,
                    toPeriodM (time_index.getD (idx - 1) default) - toPeriodM sd + 1)]
              else eventsOfRuns time_index d acc) := by
          simp [eventLoop]
        have hstepR : runsAux (false :: rest') idx (some s0) acc
            = runsAux rest' (idx + 1) none (acc ++ [(s0, idx - s0)]) := rfl
        have hclose :
            (if d ≤ toPeriodM (time_index.getD (idx - 1) default) - toPeriodM sd + 1 then
              eventsOfRuns time_index d acc ++
                [(sd, time_index.getD (idx - 1) default,
                  toPeriodM (time_index.getD (idx - 1) default) - toPeriodM sd + 1)]
            else eventsOfRuns time_index d acc)
            = eventsOfRuns time_index d (acc ++ [(s0, idx - s0)]) := by
          rw [eventsOfRuns_concat, hrun]
          by_cases hd :
              d ≤ toPeriodM (time_index.getD (idx - 1) default) - toPeriodM sd + 1
          · rw [if_pos hd, if_pos hd]
          · rw [if_neg hd, if_neg hd, List.append_nil]
        rw [show (some s0 : Option Nat).isSome = true from rfl, hstepL, hclose, hstepR]
        have := ih (idx + 1) none sd (acc ++ [(s0, idx - s0)]) hlen'
          (by intro s1 h1; cases h1)
        simpa using this

/-- `eventLoop` from the initial state computes exactly the events of the
mask's maximal `true` runs. -/
lemma eventLoop_spec (time_index : List Timestamp) (d : Int) (mask : List Bool)
    (sd : Timestamp) (h : mask.length = time_index.length) :
    eventLoop time_index d mask 0 false sd [] =
      eventsOfRuns time_index d (maskRuns mask) := by
  have := eventLoop_eq_runsAux time_index d mask 0 none sd []
    (by simpa using h) (by intro s0 h0; cases h0)
  simpa [maskRuns, eventsOfRuns_nil] using this

/-- Any successful `detect_events` call returns the mask obtained from the
mode's threshold and the events computed by the scan over that mask. -/
lemma detect_events_ok {series : List ℚ} {time_index : List Timestamp}
    {method : String} {pct z : ℚ} {d : Int} {evs : List Event} {mask : List Bool}
    (hok : detect_events series time_index method pct z d = .ok (evs, mask)) :
    ∃ thr, thresholdOf series method pct z = some thr ∧
      mask = series.map (fun x => decide (thr < x)) ∧
      evs = eventLoop time_index d mask 0 false default [] := by
  by_cases hp : method = "percentile"
  · subst hp
    unfold detect_events at hok
    rw [if_pos rfl] at hok
    cases hper : percentile series pct with
    | error e =>
      rw [hper] at hok
      cases hok
    | ok thr =>
      rw [hper] at hok
      simp only [Except.ok.injEq, Prod.mk.injEq] at hok
      obtain ⟨h1, h2⟩ := hok
      refine ⟨thr, ?_, h2.symm, ?_⟩
      · simp [thresholdOf, hper, Except.toOption]
      · rw [← h2]
        exact h1.symm
  · by_cases hz : method = "zscore"
    · subst hz
      unfold detect_events at hok
      rw [if_neg (by decide), if_pos rfl] at hok
      simp only [Except.ok.injEq, Prod.mk.injEq] at hok
      obtain ⟨h1, h2⟩ := hok
      refine ⟨z, ?_, h2.symm, ?_⟩
      · simp [thresholdOf]
      · rw [← h2]
        exact h1.symm
    · unfold detect_events at hok
      rw [if_neg hp, if_neg hz] at hok
      cases hok

/-! ### Run algebra: runs of block-shaped masks, ordering and bounds -/

lemma runsAux_replicate_false (a : Nat) (l : List Bool) (idx : Nat)
    (acc : List (Nat × Nat)) :
    runsAux (List.replicate a false ++ l) idx none acc
      = runsAux l (idx + a) none acc := by
  induction a generalizing idx with
  | zero => simp
  | succ k ihk =>
    rw [List.replicate_succ, List.cons_append]
    have step : runsAux (false :: (List.replicate k false ++ l)) idx none acc
        = runsAux (List.replicate k false ++ l) (idx + 1) none acc := rfl
    rw [step, ihk]
    have h2 : idx + 1 + k = idx + (k + 1) := by omega
    rw [h2]

lemma runsAux_replicate_true_some (k : Nat) (l : List Bool) (idx s : Nat)
    (acc : List (Nat × Nat)) :
    runsAux (List.replicate k true ++ l) idx (some s) acc
      = runsAux l (idx + k) (some s) acc := by
  induction k generalizing idx with
  | zero => simp
  | succ k' ihk =>
    rw [List.replicate_succ, List.cons_append]
    have step : runsAux (true :: (List.replicate k' true ++ l)) idx (some s) acc
        = runsAux (List.replicate k' true ++ l) (idx + 1) (some s) acc := rfl
    rw [step, ihk]
    have h2 : idx + 1 + k' = idx + (k' + 1) := by omega
    rw [h2]

lemma runsAux_replicate_true_none (k : Nat) (hk : 1 ≤ k) (l : List Bool)
    (idx : Nat) (acc : List (Nat × Nat)) :
    runsAux (List.replicate k true ++ l) idx none acc
      = runsAux l (idx + k) (some idx) acc := by
  obtain ⟨k', rfl⟩ : ∃ k', k = k' + 1 := ⟨k - 1, by omega⟩
  rw [List.replicate_succ, List.cons_append]
  have step : runsAux (true :: (List.replicate k' true ++ l)) idx none acc
      = runsAux (List.replicate k' true ++ l) (idx + 1) (some idx) acc := rfl
  rw [step, runsAux_replicate_true_some]
  have h2 : idx + 1 + k' = idx + (k' + 1) := by omega
  rw [h2]

lemma runsAux_replicate_false_some (c : Nat) (hc : 1 ≤ c) (l : List Bool)
    (idx s : Nat) (acc : List (Nat × Nat)) :
    runsAux (List.replicate c false ++ l) idx (some s) acc
      = runsAux l (idx + c) none (acc ++ [(s, idx - s)]) := by
  obtain ⟨c', rfl⟩ : ∃ c', c = c' + 1 := ⟨c - 1, by omega⟩
  rw [List.replicate_succ, List.cons_append]
  have step : runsAux (false :: (List.replicate c' false ++ l)) idx (some s) acc
      = runsAux (List.replicate c' false ++ l) (idx + 1) none
          (acc ++ [(s, idx - s)]) := rfl
  rw [step, runsAux_replicate_false]
  have h2 : idx + 1 + c' = idx + (c' + 1) := by omega
  rw [h2]

lemma runsAux_replicate_false_tail (b idx s : Nat) (acc : List (Nat × Nat)) :
    runsAux (List.replicate b false) idx (some s) acc = acc ++ [(s, idx - s)] := by
  cases b with
  | zero => rfl
  | succ b' =>
    rw [← List.append_nil (List.replicate (b' + 1) false),
      runsAux_replicate_false_some _ (by omega)]
    rfl

/-- Runs of a mask that is a single true block of length `k ≥ 1` between
false padding. -/
lemma maskRuns_single (a k b : Nat) (hk : 1 ≤ k) :
    maskRuns (List.replicate a false ++ List.replicate k true ++
        List.replicate b false)
      = [(a, k)] := by
  unfold maskRuns
  rw [List.append_assoc, runsAux_replicate_false,
    runsAux_replicate_true_none _ hk, runsAux_replicate_false_tail]
  simp only [Nat.zero_add, List.nil_append, Nat.add_sub_cancel_left]

/-- Runs of a mask with two true blocks separated by at least one false. -/
lemma maskRuns_double (a k c j b : Nat) (hk : 1 ≤ k) (hc : 1 ≤ c) (hj : 1 ≤ j) :
    maskRuns (List.replicate a false ++ List.replicate k true ++
        List.replicate c false ++ List.replicate j true ++ List.replicate b false)
      = [(a, k), (a + k + c, j)] := by
  unfold maskRuns
  simp only [List.append_assoc]
  rw [runsAux_replicate_false, runsAux_replicate_true_none _ hk,
    runsAux_replicate_false_some _ hc, runsAux_replicate_true_none _ hj,
    runsAux_replicate_false_tail]
  simp only [Nat.zero_add, List.nil_append, Nat.add_sub_cancel_left,
    List.cons_append, List.nil_append]

/-- Strict ordering of runs: one run ends strictly before the next starts. -/
def RunRel (r1 r2 : Nat × Nat) : Prop := r1.1 + r1.2 < r2.1

/-- Invariant of the run scan: the produced runs are pairwise ordered and
separated, nonempty, and contained in the scanned range. -/
lemma runsAux_inv (l : List Bool) :
    ∀ (idx : Nat) (s : Option Nat) (acc : List (Nat × Nat)),
      (∀ s0, s = some s0 → s0 < idx) →
      (∀ r ∈ acc, 1 ≤ r.2 ∧ r.1 + r.2 < s.getD idx) →
      acc.Pairwise RunRel →
      (runsAux l idx s acc).Pairwise RunRel ∧
        ∀ r ∈ runsAux l idx s acc, 1 ≤ r.2 ∧ r.1 + r.2 ≤ idx + l.length := by
  induction l with
  | nil =>
    intro idx s acc hse hacc hpw
    cases s with
    | none =>
      refine ⟨hpw, ?_⟩
      intro r hr
      have := hacc r hr
      simp only [Option.getD_none] at this
      exact ⟨this.1, by omega⟩
    | some s0 =>
      have hs0 : s0 < idx := hse s0 rfl
      have hstep : runsAux [] idx (some s0) acc = acc ++ [(s0, idx - s0)] := rfl
      rw [hstep]
      constructor
      · rw [List.pairwise_append]
        refine ⟨hpw, by simp, ?_⟩
        intro r hr r' hr'
        simp only [List.mem_singleton] at hr'
        subst hr'
        have := (hacc r hr).2
        simpa [RunRel] using this
      · intro r hr
        rcases List.mem_append.1 hr with h | h
        · have := hacc r h
          simp only [Option.getD_some] at this
          exact ⟨this.1, by omega⟩
        · simp only [List.mem_singleton] at h
          subst h
          simp only [List.length_nil]
          exact ⟨by omega, by omega⟩
  | cons val rest ih =>
    intro idx s acc hse hacc hpw
    have hlen : idx + (val :: rest).length = idx + 1 + rest.length := by
      simp only [List.length_cons]
      omega
    cases val with
    | false =>
      cases s with
      | none =>
        have hstep : runsAux (false :: rest) idx none acc
            = runsAux rest (idx + 1) none acc := rfl
        rw [hstep]
        have := ih (idx + 1) none acc (by intro s0 h0; cases h0)
          (by
            intro r hr
            have := hacc r hr
            simp only [Option.getD_none] at this ⊢
            exact ⟨this.1, by omega⟩)
          hpw
        exact ⟨this.1, fun r hr => ⟨(this.2 r hr).1, by
          have := (this.2 r hr).2
          omega⟩⟩
      | some s0 =>
        have hs0 : s0 < idx := hse s0 rfl
        have hstep : runsAux (false :: rest) idx (some s0) acc
            = runsAux rest (idx + 1) none (acc ++ [(s0, idx - s0)]) := rfl
        rw [hstep]
        have hacc' : ∀ r ∈ acc ++ [(s0, idx - s0)],
            1 ≤ r.2 ∧ r.1 + r.2 < (none : Option Nat).getD (idx + 1) := by
          intro r hr
          rcases List.mem_append.1 hr with h | h
          · have := hacc r h
            simp only [Option.getD_some] at this
            simp only [Option.getD_none]
            exact ⟨this.1, by omega⟩
          · simp only [List.mem_singleton] at h
            subst h
            simp only [Option.getD_none]
            exact ⟨by omega, by omega⟩
        have hpw' : (acc ++ [(s0, idx - s0)]).Pairwise RunRel := by
          rw [List.pairwise_append]
          refine ⟨hpw, by simp, ?_⟩
          intro r hr r' hr'
          simp only [List.mem_singleton] at hr'
          subst hr'
          have := (hacc r hr).2
          simpa [RunRel] using this
        have := ih (idx + 1) none (acc ++ [(s0, idx - s0)])
          (by intro s1 h1; cases h1) hacc' hpw'
        exact ⟨this.1, fun r hr => ⟨(this.2 r hr).1, by
          have := (this.2 r hr).2
          omega⟩⟩
    | true =>
      cases s with
      | none =>
        have hstep : runsAux (true :: rest) idx none acc
            = runsAux rest (idx + 1) (some idx) acc := rfl
        rw [hstep]
        have := ih (idx + 1) (some idx) acc
          (by intro s0 h0; injection h0 with h0; omega)
          (by
            intro r hr
            have := hacc r hr
            simp only [Option.getD_none] at this
            simp only [Option.getD_some]
            exact ⟨this.1, this.2⟩)
          hpw
        exact ⟨this.1, fun r hr => ⟨(this.2 r hr).1, by
          have := (this.2 r hr).2
          omega⟩⟩
      | some s0 =>
        have hs0 : s0 < idx := hse s0 rfl
        have hstep : runsAux (true :: rest) idx (some s0) acc
            = runsAux rest (idx + 1) (some s0) acc := rfl
        rw [hstep]
        have := ih (idx + 1) (some s0) acc
          (by intro s1 h1; injection h1 with h1; omega)
          (fun r hr => hacc r hr)
          hpw
        exact ⟨this.1, fun r hr => ⟨(this.2 r hr).1, by
          have := (this.2 r hr).2
          omega⟩⟩

/-- The runs of any mask are pairwise separated, nonempty, and within the
mask's index range. -/
lemma maskRuns_inv (mask : List Bool) :
    (maskRuns mask).Pairwise RunRel ∧
      ∀ r ∈ maskRuns mask, 1 ≤ r.2 ∧ r.1 + r.2 ≤ mask.length := by
  have := runsAux_inv mask 0 none [] (by intro s0 h0; cases h0) (by simp) (by simp)
  simpa [maskRuns] using this

/-- Over a gap-free monthly time index, the event of a run within range has
the run's first and last timestamps and duration equal to the run length. -/
lemma runEventAt_monthRange (m0 : Int) {n s k : Nat} (hk : 1 ≤ k)
    (hsk : s + k ≤ n) :
    runEventAt (monthRange m0 n) (s, k)
      = (monthIndexToTs (m0 + s), monthIndexToTs (m0 + (s + k - 1 : Nat)),
          (k : Int)) := by
  dsimp only [runEventAt]
  rw [monthRange_getD m0 (by omega : s < n),
    monthRange_getD m0 (by omega : s + k - 1 < n)]
  have hdur : toPeriodM (monthIndexToTs (m0 + (s + k - 1 : Nat)))
      - toPeriodM (monthIndexToTs (m0 + s)) + 1 = (k : Int) := by
    rw [toPeriodM_monthIndexToTs, toPeriodM_monthIndexToTs]
    omega
  rw [hdur]

/-- Pair form of `runEventAt_monthRange`. -/
lemma runEventAt_monthRange_pair (m0 : Int) {n : Nat} (r : Nat × Nat)
    (hk : 1 ≤ r.2) (hsk : r.1 + r.2 ≤ n) :
    runEventAt (monthRange m0 n) r
      = (monthIndexToTs (m0 + r.1), monthIndexToTs (m0 + (r.1 + r.2 - 1 : Nat)),
          (r.2 : Int)) := by
  obtain ⟨s, k⟩ := r
  exact runEventAt_monthRange m0 hk hsk

/-- The timestamp of month `m` (0-based) of year `y`. -/
lemma monthIndexToTs_ofMonth (y : Int) (m : Nat) (hm : m < 12) :
    monthIndexToTs (12 * y + (m : Int)) = ⟨y, (m : Int) + 1, 1⟩ := by
  unfold monthIndexToTs
  have h1 : (12 * y + (m : Int)) / 12 = y := by omega
  have h2 : (12 * y + (m : Int)) % 12 = (m : Int) := by omega
  rw [h1, h2]

lemma thresholdOf_percentile {series : List ℚ} {pct z thr : ℚ}
    (hthr : thresholdOf series "percentile" pct z = some thr) :
    percentile series pct = .ok thr := by
  unfold thresholdOf at hthr
  rw [if_pos rfl] at hthr
  cases hx : percentile series pct with
  | error e => rw [hx] at hthr; simp [Except.toOption] at hthr
  | ok t =>
    rw [hx] at hthr
    simp only [Except.toOption, Option.some.injEq] at hthr
    rw [hthr]

lemma thresholdOf_zscore {series : List ℚ} {pct z thr : ℚ}
    (hthr : thresholdOf series "zscore" pct z = some thr) : z = thr := by
  unfold thresholdOf at hthr
  rw [if_neg (by decide), if_pos rfl] at hthr
  simpa using hthr

/-- With every value at or below the threshold, the mask is all false. -/
lemma map_all_false {series : List ℚ} {thr : ℚ} (h : ∀ x ∈ series, x ≤ thr) :
    series.map (fun x => decide (thr < x)) = List.replicate series.length false := by
  induction series with
  | nil => rfl
  | cons a t ih =>
    rw [List.map_cons, List.length_cons, List.replicate_succ]
    have ha : ¬ thr < a := not_lt.2 (h a (List.mem_cons_self a t))
    rw [decide_eq_false ha, ih (fun x hx => h x (List.mem_cons_of_mem a hx))]

/-- The scan never produces an event from an all-false mask. -/
lemma eventLoop_replicate_false (time_index : List Timestamp) (d : Int)
    (n : Nat) :
    ∀ (idx : Nat) (sd : Timestamp) (evs : List Event),
      eventLoop time_index d (List.replicate n false) idx false sd evs = evs := by
  induction n with
  | zero => intro idx sd evs; rfl
  | succ m ih =>
    intro idx sd evs
    rw [List.replicate_succ]
    have step : eventLoop time_index d (false :: List.replicate m false) idx false sd evs
        = eventLoop time_index d (List.replicate m false) (idx + 1) false sd evs := by
      simp [eventLoop]
    rw [step, ih]

/-- Shared: with a threshold no value exceeds, `detect_events` returns no
events and an all-false mask. -/
lemma detect_events_all_le (series : List ℚ) (time_index : List Timestamp)
    (method : String) (pct z : ℚ) (d : Int) (thr : ℚ)
    (hthr : thresholdOf series method pct z = some thr)
    (hle : ∀ x ∈ series, x ≤ thr) :
    detect_events series time_index method pct z d
      = .ok ([], List.replicate series.length false) := by
  by_cases hp : method = "percentile"
  · subst hp
    have hper := thresholdOf_percentile hthr
    unfold detect_events
    rw [if_pos rfl, hper]
    simp only [map_all_false hle]
    rw [eventLoop_replicate_false]
  · by_cases hz : method = "zscore"
    · subst hz
      have hthr' := thresholdOf_zscore hthr
      subst hthr'
      unfold detect_events
      rw [if_neg (by decide), if_pos rfl]
      simp only [map_all_false hle]
      rw [eventLoop_replicate_false]
    · exfalso
      unfold thresholdOf at hthr
      rw [if_neg hp, if_neg hz] at hthr
      cases hthr

/-- Shared: a successful `detect_events` call over a gap-free monthly time
index returns a mask of the series' length, and the events of the mask's
maximal runs. -/
lemma detect_events_monthRange_ok {series : List ℚ} {m0 : Int}
    {method : String} {pct z : ℚ} {d : Int} {evs : List Event} {mask : List Bool}
    (hok : detect_events series (monthRange m0 series.length) method pct z d
      = .ok (evs, mask)) :
    mask.length = series.length ∧
      evs = eventsOfRuns (monthRange m0 series.length) d (maskRuns mask) := by
  obtain ⟨thr, hthr, hmask, hevs⟩ := detect_events_ok hok
  have hlen : mask.length = series.length := by rw [hmask]; simp
  refine ⟨hlen, ?_⟩
  rw [hevs, eventLoop_spec _ _ _ _ (by rw [hlen, monthRange_length])]

lemma getD_map_decide (series : List ℚ) (thr : ℚ) (i : Nat)
    (h : i < series.length) :
    (series.map (fun x => decide (thr < x))).getD i false
      = decide (thr < series.getD i 0) := by
  rw [List.getD_eq_getElem _ _ (by simpa using h), List.getD_eq_getElem _ _ h,
    List.getElem_map]

/-- Appending a trailing `false` to a mask does not change its runs. -/
lemma runsAux_append_false (l : List Bool) :
    ∀ (idx : Nat) (s : Option Nat) (acc : List (Nat × Nat)),
      runsAux (l ++ [false]) idx s acc = runsAux l idx s acc := by
  induction l with
  | nil =>
    intro idx s acc
    cases s with
    | none => rfl
    | some s0 => rfl
  | cons b t ih =>
    intro idx s acc
    cases b <;> cases s <;> exact ih _ _ _

lemma maskRuns_append_false (mask : List Bool) :
    maskRuns (mask ++ [false]) = maskRuns mask :=
  runsAux_append_false mask 0 none []

/-- If the mask ends in `true` (or is exhausted while a run is open), the
final run produced ends exactly at the last scanned index. -/
lemma runsAux_last_true :
    ∀ (l : List Bool) (idx : Nat) (s : Option Nat) (acc : List (Nat × Nat)),
      (∀ s0, s = some s0 → s0 < idx) →
      (l.getLast? = some true ∨ (l = [] ∧ s.isSome = true)) →
      ∃ s' init, s' < idx + l.length ∧
        runsAux l idx s acc = init ++ [(s', idx + l.length - s')] := by
  intro l
  induction l with
  | nil =>
    intro idx s acc hse hlast
    rcases hlast with h | ⟨-, hs⟩
    · simp at h
    · cases s with
      | none => simp at hs
      | some s0 =>
        refine ⟨s0, acc, ?_, ?_⟩
        · have := hse s0 rfl
          simpa using this
        · rfl
  | cons b t ih =>
    intro idx s acc hse hlast
    cases t with
    | nil =>
      have hb : b = true := by
        rcases hlast with h | ⟨h, -⟩
        · simpa using h
        · cases h
      subst hb
      cases s with
      | none =>
        refine ⟨idx, acc, by simp, ?_⟩
        rfl
      | some s0 =>
        have hs0 := hse s0 rfl
        refine ⟨s0, acc, ?_, ?_⟩
        · simp only [List.length_cons, List.length_nil]
          omega
        · rfl
    | cons c t' =>
      have hlast' : (c :: t').getLast? = some true := by
        rcases hlast with h | ⟨h, -⟩
        · rwa [List.getLast?_cons_cons] at h
        · cases h
      have hlen2 : ∀ s' : Nat, idx + 1 + (c :: t').length - s'
          = idx + (b :: c :: t').length - s' := by
        intro s'
        simp only [List.length_cons]
        omega
      cases b with
      | true =>
        cases s with
        | none =>
          obtain ⟨s', init, hlt, heq⟩ := ih (idx + 1) (some idx) acc
            (by intro s0 h0; injection h0 with h0; omega) (Or.inl hlast')
          refine ⟨s', init, ?_, ?_⟩
          · simp only [List.length_cons] at hlt ⊢
            omega
          · rw [show runsAux (true :: c :: t') idx none acc
                = runsAux (c :: t') (idx + 1) (some idx) acc from rfl, heq,
              hlen2 s']
        | some s0 =>
          obtain ⟨s', init, hlt, heq⟩ := ih (idx + 1) (some s0) acc
            (by intro s1 h1; injection h1 with h1; subst h1
                exact Nat.lt_succ_of_lt (hse s0 rfl)) (Or.inl hlast')
          refine ⟨s', init, ?_, ?_⟩
          · simp only [List.length_cons] at hlt ⊢
            omega
          · rw [show runsAux (true :: c :: t') idx (some s0) acc
                = runsAux (c :: t') (idx + 1) (some s0) acc from rfl, heq,
              hlen2 s']
      | false =>
        cases s with
        | none =>
          obtain ⟨s', init, hlt, heq⟩ := ih (idx + 1) none acc
            (by intro s0 h0; cases h0) (Or.inl hlast')
          refine ⟨s', init, ?_, ?_⟩
          · simp only [List.length_cons] at hlt ⊢
            omega
          · rw [show runsAux (false :: c :: t') idx none acc
                = runsAux (c :: t') (idx + 1) none acc from rfl, heq,
              hlen2 s']
        | some s0 =>
          obtain ⟨s', init, hlt, heq⟩ := ih (idx + 1) none
            (acc ++ [(s0, idx - s0)]) (by intro s1 h1; cases h1)
            (Or.inl hlast')
          refine ⟨s', init, ?_, ?_⟩
          · simp only [List.length_cons] at hlt ⊢
            omega
          · rw [show runsAux (false :: c :: t') idx (some s0) acc
                = runsAux (c :: t') (idx + 1) none (acc ++ [(s0, idx - s0)])
                from rfl, heq, hlen2 s']

/-- A mask ending in `true` has a final run reaching the mask's end. -/
lemma maskRuns_last_true (mask : List Bool)
    (hlast : mask.getLast? = some true) :
    ∃ s init, s < mask.length ∧
      maskRuns mask = init ++ [(s, mask.length - s)] := by
  obtain ⟨s', init, hlt, heq⟩ := runsAux_last_true mask 0 none []
    (by intro s0 h0; cases h0) (Or.inl hlast)
  refine ⟨s', init, ?_, ?_⟩
  · simpa using hlt
  · simpa [maskRuns] using heq

/-! ### Easy claims: invalid method and unused-parameter noninterference -/

/-- Claim C6: any method other than `percentile` and `zscore` makes
`detect_events` fail with the `ValueError` message, producing neither a
mask nor events. -/
theorem C6_invalid_method (series : List ℚ) (time_index : List Timestamp)
    (method : String) (pct z : ℚ) (d : Int)
    (h1 : method ≠ "percentile") (h2 : method ≠ "zscore") :
    detect_events series time_index method pct z d =
      .error "Method must be percentile or zscore." := by
  simp [detect_events, h1, h2]

/-- Witness for C6 at the concrete method string `"mean"`. -/
theorem C6_invalid_method_witness :
    detect_events [1, 2] (monthRange 0 2) "mean" 90 (3/2) 2 =
      .error "Method must be percentile or zscore." :=
  C6_invalid_method [1, 2] (monthRange 0 2) "mean" 90 (3/2) 2
    (by decide) (by decide)

/-- Claim C9: `pct` does not influence z-score mode and `z_thresh` does
not influence percentile mode: two calls differing only in the unused
parameter return identical results. -/
theorem C9_unused_params (series : List ℚ) (time_index : List Timestamp)
    (pct1 pct2 z1 z2 pct z : ℚ) (d : Int) :
    detect_events series time_index "zscore" pct1 z d =
        detect_events series time_index "zscore" pct2 z d ∧
      detect_events series time_index "percentile" pct z1 d =
        detect_events series time_index "percentile" pct z2 d :=
  ⟨rfl, rfl⟩

/-! ### Run/duration claims -/

/-- Claim C2: on a gap-free monthly index, a mask consisting of a single
contiguous true run of length `k ≥ 1` yields exactly one event — spanning
the run's first and last timestamps with duration `k` — iff
`k ≥ min_duration_months`, and no event at all otherwise. -/
theorem C2_single_run (series : List ℚ) (m0 : Int) (method : String)
    (pct z : ℚ) (d : Int) (evs : List Event) (mask : List Bool) (a k b : Nat)
    (hok : detect_events series (monthRange m0 series.length) method pct z d
      = .ok (evs, mask))
    (hmask : mask = List.replicate a false ++ List.replicate k true ++
      List.replicate b false)
    (hk : 1 ≤ k) :
    evs = if d ≤ (k : Int) then
        [(monthIndexToTs (m0 + a), monthIndexToTs (m0 + (a + k - 1 : Nat)),
          (k : Int))]
      else [] := by
  obtain ⟨hlen, hevs⟩ := detect_events_monthRange_ok hok
  have hn : a + k + b = series.length := by
    have := congrArg List.length hmask
    simp only [List.length_append, List.length_replicate] at this
    omega
  have hrun := @runEventAt_monthRange m0 series.length a k hk (by omega)
  rw [hevs, hmask, maskRuns_single a k b hk]
  unfold eventsOfRuns
  rw [List.map_cons, List.map_nil, hrun]
  simp only [List.filter_cons, List.filter_nil, decide_eq_true_eq]

/-- Witness for C2: series `[0,5,0]` with z-score threshold 1 has a single
run of length 1 < 2 = min duration, so no event is returned. -/
theorem C2_single_run_witness :
    ([] : List Event)
      = if (2 : Int) ≤ ((1 : Nat) : Int) then
          [(monthIndexToTs ((0 : Int) + (1 : Nat)),
            monthIndexToTs ((0 : Int) + (1 + 1 - 1 : Nat)), ((1 : Nat) : Int))]
        else [] :=
  C2_single_run [0, 5, 0] 0 "zscore" 90 1 2 [] [false, true, false] 1 1 1
    rfl rfl (by omega)

/-- Claim C1: the spec's worked example.  For the monthly series
`[0,0,5,5,5,0,0,5,0]` over January–September of any year, any z-score
threshold at or above 0 and strictly below 5, and a 2-month minimum
duration, exactly the March–May event of duration 3 is returned; the
isolated August exceedance is discarded. -/
theorem C1_example (y : Int) (pct z : ℚ) (h0 : 0 ≤ z) (h5 : z < 5) :
    detect_events [0, 0, 5, 5, 5, 0, 0, 5, 0] (monthRange (12 * y) 9)
        "zscore" pct z 2
      = .ok ([(⟨y, 3, 1⟩, ⟨y, 5, 1⟩, 3)],
          [false, false, true, true, true, false, false, true, false]) := by
  have hm0 : decide (z < 0) = false := decide_eq_false (not_lt.2 h0)
  have hm5 : decide (z < 5) = true := decide_eq_true h5
  have hmask :
      ([0, 0, 5, 5, 5, 0, 0, 5, 0] : List ℚ).map (fun x => decide (z < x))
        = [false, false, true, true, true, false, false, true, false] := by
    simp only [List.map_cons, List.map_nil, hm0, hm5]
  unfold detect_events
  rw [if_neg (by decide), if_pos rfl]
  simp only [hmask]
  rw [eventLoop_spec _ _ _ _ (by simp [monthRange_length])]
  rw [show maskRuns [false, false, true, true, true, false, false, true, false]
      = [(2, 3), (7, 1)] from rfl]
  have h1 := @runEventAt_monthRange (12 * y) 9 2 3 (by omega) (by omega)
  have h2 := @runEventAt_monthRange (12 * y) 9 7 1 (by omega) (by omega)
  unfold eventsOfRuns
  rw [List.map_cons, List.map_cons, List.map_nil, h1, h2]
  simp only [List.filter_cons, List.filter_nil, decide_eq_true_eq]
  have hp1 : (2 : Int) ≤ ((3 : Nat) : Int) := by norm_num
  have hp2 : ¬ (2 : Int) ≤ ((1 : Nat) : Int) := by norm_num
  rw [if_pos hp1, if_neg hp2]
  simp only [Except.ok.injEq, Prod.mk.injEq, List.cons.injEq, and_true,
    monthIndexToTs, Timestamp.mk.injEq]
  omega

/-- Witness for C1 at year 0 and z-score threshold 3/2. -/
theorem C1_example_witness :
    detect_events [0, 0, 5, 5, 5, 0, 0, 5, 0] (monthRange (12 * 0) 9)
        "zscore" 90 (3/2) 2
      = .ok ([(⟨0, 3, 1⟩, ⟨0, 5, 1⟩, 3)],
          [false, false, true, true, true, false, false, true, false]) :=
  C1_example 0 90 (3/2) (by norm_num) (by norm_num)

/-! ### Degenerate inputs -/

/-- Counterexample to claim C5 as stated: in percentile mode an empty
series does not return an empty event list — numpy's percentile rejects an
empty input, so the call errors. -/
theorem C5_counterexample :
    detect_events [] [] "percentile" 90 (3/2) 2
      = .error "cannot do a non-empty take from an empty axes." := rfl

/-- Claim C5, amended: an empty series returns an empty event list (and
mask) without error in z-score mode; a series with no value above the
mode's threshold returns an empty event list without error in either mode;
but in percentile mode an empty series is an error. -/
theorem C5_empty_or_all_false (time_index : List Timestamp) (method : String)
    (pct z : ℚ) (d : Int) :
    detect_events [] time_index "zscore" pct z d = .ok ([], []) ∧
      (∃ msg, detect_events [] time_index "percentile" pct z d = .error msg) ∧
      ∀ (series : List ℚ) (thr : ℚ),
        thresholdOf series method pct z = some thr →
        (∀ x ∈ series, x ≤ thr) →
        detect_events series time_index method pct z d
          = .ok ([], List.replicate series.length false) := by
  refine ⟨?_, ?_, ?_⟩
  · unfold detect_events
    rw [if_neg (by decide), if_pos rfl]
    rfl
  · unfold detect_events
    rw [if_pos rfl]
    by_cases hq : pct < 0 ∨ 100 < pct
    · refine ⟨"Percentiles must be in the range [0, 100]", ?_⟩
      have hper : percentile [] pct
          = .error "Percentiles must be in the range [0, 100]" := by
        unfold percentile
        rw [if_pos hq]
      rw [hper]
    · refine ⟨"cannot do a non-empty take from an empty axes.", ?_⟩
      have hper : percentile [] pct
          = .error "cannot do a non-empty take from an empty axes." := by
        unfold percentile
        rw [if_neg hq, if_pos rfl]
      rw [hper]
  · intro series thr hthr hle
    exact detect_events_all_le series time_index method pct z d thr hthr hle

/-- Witness for the amended C5 at a concrete all-below-threshold series. -/
theorem C5_empty_or_all_false_witness :
    detect_events [1, 1] (monthRange 0 2) "zscore" 90 2 2
      = .ok ([], List.replicate ([1, 1] : List ℚ).length false) :=
  (C5_empty_or_all_false (monthRange 0 2) "zscore" 90 2 2).2.2 [1, 1] 2 rfl
    (by
      intro x hx
      rcases List.mem_cons.1 hx with h | h
      · rw [h]; norm_num
      · rcases List.mem_cons.1 h with h2 | h2
        · rw [h2]; norm_num
        · cases h2)

/-- Claim C7: on any valid input the returned mask has the length of the
series and marks exactly the entries strictly above the mode's threshold
(the series percentile in percentile mode, `z_thresh` in z-score mode). -/
theorem C7_mask_shape (series : List ℚ) (time_index : List Timestamp)
    (method : String) (pct z : ℚ) (d : Int) (thr : ℚ)
    (hthr : thresholdOf series method pct z = some thr) :
    ∃ evs mask,
      detect_events series time_index method pct z d = .ok (evs, mask) ∧
        mask.length = series.length ∧
        ∀ i, i < series.length →
          mask.getD i false = decide (thr < series.getD i 0) := by
  by_cases hp : method = "percentile"
  · subst hp
    have hper := thresholdOf_percentile hthr
    refine ⟨eventLoop time_index d
        (series.map (fun x => decide (thr < x))) 0 false default [],
      series.map (fun x => decide (thr < x)), ?_, by simp, ?_⟩
    · unfold detect_events
      rw [if_pos rfl, hper]
    · intro i hi
      exact getD_map_decide series thr i hi
  · by_cases hz : method = "zscore"
    · subst hz
      have hthr' := thresholdOf_zscore hthr
      subst hthr'
      refine ⟨eventLoop time_index d
          (series.map (fun x => decide (z < x))) 0 false default [],
        series.map (fun x => decide (z < x)), ?_, by simp, ?_⟩
      · unfold detect_events
        rw [if_neg (by decide), if_pos rfl]
      · intro i hi
        exact getD_map_decide series z i hi
    · exfalso
      unfold thresholdOf at hthr
      rw [if_neg hp, if_neg hz] at hthr
      cases hthr

/-- Witness for C7 on a concrete z-score call. -/
theorem C7_mask_shape_witness :
    ∃ evs mask,
      detect_events [1, 2] (monthRange 0 2) "zscore" 90 (3/2) 2
          = .ok (evs, mask) ∧
        mask.length = ([1, 2] : List ℚ).length ∧
        ∀ i, i < ([1, 2] : List ℚ).length →
          mask.getD i false = decide ((3/2 : ℚ) < ([1, 2] : List ℚ).getD i 0) :=
  C7_mask_shape [1, 2] (monthRange 0 2) "zscore" 90 (3/2) 2 (3/2) rfl

/-- Claim C8: a series in which no value strictly exceeds the threshold
yields an empty event list and an all-false mask. -/
theorem C8_no_exceed (series : List ℚ) (time_index : List Timestamp)
    (method : String) (pct z : ℚ) (d : Int) (thr : ℚ)
    (_hne : series ≠ [])
    (hthr : thresholdOf series method pct z = some thr)
    (hle : ∀ x ∈ series, x ≤ thr) :
    detect_events series time_index method pct z d
      = .ok ([], List.replicate series.length false) :=
  detect_events_all_le series time_index method pct z d thr hthr hle

/-- Witness for C8 at a concrete series whose values all sit below the
z-score threshold. -/
theorem C8_no_exceed_witness :
    detect_events [1, 2] (monthRange 0 2) "zscore" 90 5 2
      = .ok ([], List.replicate ([1, 2] : List ℚ).length false) :=
  C8_no_exceed [1, 2] (monthRange 0 2) "zscore" 90 5 2 5 (by simp) rfl
    (by
      intro x hx
      rcases List.mem_cons.1 hx with h | h
      · rw [h]; norm_num
      · rcases List.mem_cons.1 h with h2 | h2
        · rw [h2]; norm_num
        · cases h2)

/-- Claim C10: every returned event starts and ends at timestamps of the
input time index, starts no later than it ends, and has duration at least
`min_duration_months`. -/
theorem C10_event_bounds (series : List ℚ) (m0 : Int) (method : String)
    (pct z : ℚ) (d : Int) (evs : List Event) (mask : List Bool)
    (hok : detect_events series (monthRange m0 series.length) method pct z d
      = .ok (evs, mask)) :
    ∀ ev ∈ evs, ev.1 ∈ monthRange m0 series.length ∧
      ev.2.1 ∈ monthRange m0 series.length ∧
      toPeriodM ev.1 ≤ toPeriodM ev.2.1 ∧ d ≤ ev.2.2 := by
  obtain ⟨hlen, hevs⟩ := detect_events_monthRange_ok hok
  intro ev hev
  rw [hevs] at hev
  simp only [eventsOfRuns, List.mem_filter, List.mem_map,
    decide_eq_true_eq] at hev
  obtain ⟨⟨r, hr, hre⟩, hdle⟩ := hev
  have hbound := (maskRuns_inv mask).2 r hr
  have hrun := runEventAt_monthRange_pair m0 r hbound.1 (hbound.2.trans hlen.le)
  subst hre
  rw [hrun] at hdle ⊢
  refine ⟨?_, ?_, ?_, hdle⟩
  · simp only [monthRange, List.mem_map, List.mem_range]
    exact ⟨r.1, by omega, rfl⟩
  · simp only [monthRange, List.mem_map, List.mem_range]
    exact ⟨r.1 + r.2 - 1, by omega, rfl⟩
  · rw [toPeriodM_monthIndexToTs, toPeriodM_monthIndexToTs]
    omega

/-- Claim C3: on a gap-free monthly index the returned events are pairwise
non-overlapping and ordered by start, every event's duration is the
calendar-month difference of its endpoints plus one, and two true runs
separated by a false gap are reported as two separate events. -/
theorem C3_invariants (series : List ℚ) (m0 : Int) (method : String)
    (pct z : ℚ) (d : Int) (evs : List Event) (mask : List Bool)
    (hok : detect_events series (monthRange m0 series.length) method pct z d
      = .ok (evs, mask)) :
    evs.Pairwise (fun e1 e2 => toPeriodM e1.2.1 < toPeriodM e2.1) ∧
      (∀ e ∈ evs, e.2.2 = toPeriodM e.2.1 - toPeriodM e.1 + 1) ∧
      ∀ a k c j b : Nat, 1 ≤ k → 1 ≤ c → 1 ≤ j →
        d ≤ (k : Int) → d ≤ (j : Int) →
        mask = List.replicate a false ++ List.replicate k true ++
          List.replicate c false ++ List.replicate j true ++
          List.replicate b false →
        evs = [(monthIndexToTs (m0 + a), monthIndexToTs (m0 + (a + k - 1 : Nat)),
            (k : Int)),
          (monthIndexToTs (m0 + (a + k + c : Nat)),
            monthIndexToTs (m0 + (a + k + c + j - 1 : Nat)), (j : Int))] := by
  obtain ⟨hlen, hevs⟩ := detect_events_monthRange_ok hok
  have hinv := maskRuns_inv mask
  refine ⟨?_, ?_, ?_⟩
  · rw [hevs]
    have hpair : (maskRuns mask).Pairwise
        (fun r1 r2 =>
          toPeriodM (runEventAt (monthRange m0 series.length) r1).2.1
            < toPeriodM (runEventAt (monthRange m0 series.length) r2).1) := by
      refine List.Pairwise.imp_of_mem ?_ hinv.1
      intro r1 r2 h1 h2 hrel
      have hb1 := hinv.2 r1 h1
      have hb2 := hinv.2 r2 h2
      rw [runEventAt_monthRange_pair m0 r1 hb1.1 (hb1.2.trans hlen.le),
        runEventAt_monthRange_pair m0 r2 hb2.1 (hb2.2.trans hlen.le)]
      dsimp only
      rw [toPeriodM_monthIndexToTs, toPeriodM_monthIndexToTs]
      have hr : r1.1 + r1.2 < r2.1 := hrel
      omega
    unfold eventsOfRuns
    exact List.Pairwise.sublist (List.filter_sublist _)
      (List.pairwise_map.mpr hpair)
  · intro e he
    rw [hevs] at he
    simp only [eventsOfRuns, List.mem_filter, List.mem_map] at he
    obtain ⟨⟨r, hr, hre⟩, -⟩ := he
    subst hre
    rfl
  · intro a k c j b hk hc hj hdk hdj hmask2
    have hn : a + k + c + j + b = series.length := by
      have := congrArg List.length hmask2
      simp only [List.length_append, List.length_replicate] at this
      omega
    have h1 := @runEventAt_monthRange m0 series.length a k hk (by omega)
    have h2 := @runEventAt_monthRange m0 series.length (a + k + c) j hj
      (by omega)
    rw [hevs, hmask2, maskRuns_double a k c j b hk hc hj]
    unfold eventsOfRuns
    rw [List.map_cons, List.map_cons, List.map_nil, h1, h2]
    simp only [List.filter_cons, List.filter_nil, decide_eq_true_eq]
    rw [if_pos hdk, if_pos hdj]

/-- Witness for C3 on a concrete two-run series. -/
theorem C3_invariants_witness :
    List.Pairwise (fun e1 e2 : Event => toPeriodM e1.2.1 < toPeriodM e2.1)
      [(⟨0, 1, 1⟩, ⟨0, 2, 1⟩, (2 : Int)), (⟨0, 4, 1⟩, ⟨0, 5, 1⟩, (2 : Int))] :=
  (C3_invariants [5, 5, 0, 5, 5] 0 "zscore" 90 1 2
    [(⟨0, 1, 1⟩, ⟨0, 2, 1⟩, 2), (⟨0, 4, 1⟩, ⟨0, 5, 1⟩, 2)]
    [true, true, false, true, true] rfl).1

/-- Claim C4: a mask still true at the final index is reported exactly as
if it had been closed by an appended false entry (over the index extended
by one month), and when the final run qualifies, the last returned event
ends at the last timestamp of the time index. -/
theorem C4_open_run_closed (series : List ℚ) (m0 : Int) (method : String)
    (pct z : ℚ) (d : Int) (evs : List Event) (mask : List Bool)
    (hok : detect_events series (monthRange m0 series.length) method pct z d
      = .ok (evs, mask))
    (hlast : mask.getLast? = some true) :
    evs = eventLoop (monthRange m0 (series.length + 1)) d (mask ++ [false])
        0 false default [] ∧
      ∃ s, s < mask.length ∧
        (d ≤ ((mask.length - s : Nat) : Int) →
          evs.getLast? = some (monthIndexToTs (m0 + s),
            monthIndexToTs (m0 + (series.length - 1 : Nat)),
            ((mask.length - s : Nat) : Int))) := by
  obtain ⟨hlen, hevs⟩ := detect_events_monthRange_ok hok
  have hinv := maskRuns_inv mask
  constructor
  · rw [eventLoop_spec _ _ _ _ (by
      simp only [List.length_append, List.length_cons, List.length_nil,
        monthRange_length]
      omega)]
    rw [maskRuns_append_false, hevs]
    unfold eventsOfRuns
    have hcong : ∀ r ∈ maskRuns mask,
        runEventAt (monthRange m0 series.length) r
          = runEventAt (monthRange m0 (series.length + 1)) r := by
      intro r hr
      have hb := hinv.2 r hr
      rw [runEventAt_monthRange_pair m0 r hb.1 (hb.2.trans hlen.le),
        runEventAt_monthRange_pair m0 r hb.1
          (by have := hb.2; omega)]
    rw [List.map_congr_left hcong]
  · obtain ⟨s, init, hslt, hruns⟩ := maskRuns_last_true mask hlast
    refine ⟨s, hslt, ?_⟩
    intro hd
    have hb : 1 ≤ mask.length - s := by omega
    have hrun := @runEventAt_monthRange m0 series.length s (mask.length - s)
      hb (by omega)
    have hidx : s + (mask.length - s) - 1 = series.length - 1 := by omega
    rw [hidx] at hrun
    rw [hevs, hruns, eventsOfRuns_concat, hrun]
    dsimp only
    rw [if_pos hd, List.getLast?_concat]

/-- Witness for C4: series `[0,5,5]` ends inside a qualifying run. -/
theorem C4_open_run_closed_witness :
    ([(⟨0, 2, 1⟩, ⟨0, 3, 1⟩, (2 : Int))] : List Event)
      = eventLoop (monthRange 0 (([0, 5, 5] : List ℚ).length + 1)) 2
          (([false, true, true] : List Bool) ++ [false]) 0 false default [] :=
  (C4_open_run_closed [0, 5, 5] 0 "zscore" 90 1 2
    [(⟨0, 2, 1⟩, ⟨0, 3, 1⟩, 2)] [false, true, true] rfl rfl).1

/-- Witness for C10 on a concrete two-month event. -/
theorem C10_event_bounds_witness :
    (⟨0, 1, 1⟩ : Timestamp) ∈ monthRange 0 2 ∧
      (⟨0, 2, 1⟩ : Timestamp) ∈ monthRange 0 2 ∧
      toPeriodM ⟨0, 1, 1⟩ ≤ toPeriodM ⟨0, 2, 1⟩ ∧ (2 : Int) ≤ (2 : Int) :=
  C10_event_bounds [5, 5] 0 "zscore" 90 1 2
    [(⟨0, 1, 1⟩, ⟨0, 2, 1⟩, 2)] [true, true] rfl
    (⟨0, 1, 1⟩, ⟨0, 2, 1⟩, 2) (by simp)

end Lagos
